import Mathlib

/-!
Verification of the `vecstore` HNSW backends.

This develops a shallow embedding of `src/store/hnsw_backend.rs` (here the
`HB` structure and `HB.*` definitions) and `src/store/hnsw_backend_new.rs`
(here `HBN`).  The Rust `HashMap`s `id_to_idx` and `idx_to_id` are modelled
as association lists (`hmGet`, `hmInsert`, `hmRemove` mirror `get`,
`insert`, `remove`); the `hnsw_rs` graph object is external to the
repository, so the set of points it holds is modelled as the list of
`(internal index, vector)` pairs ever inserted, and the candidate list its
`search` returns for a query is supplied by an oracle of type `Walk`.
Vector components and distances are modelled as rationals: every claim
below concerns which arithmetic expression the code applies to a reported
distance, not floating-point rounding.
-/

/-- External identifiers (`Ident` in `src/store/types.rs`, used as `String`
keys and `&str` throughout both backends). -/
abbrev Ident := String

/-- The distance metric enum, with the three variants matched in
`hnsw_backend_new.rs` (`Cosine`, `Euclidean`, `DotProduct`). -/
inductive Distance where
  | cosine
  | euclidean
  | dotProduct
deriving DecidableEq, Repr

/-- `HashMap::get` on the association-list model: first binding wins. -/
def hmGet {α β : Type} [DecidableEq α] : List (α × β) → α → Option β
  | [], _ => none
  | (k0, v) :: rest, k => if k0 = k then some v else hmGet rest k

/-- `HashMap::insert`: bind `k` to `v`, dropping any previous binding. -/
def hmInsert {α β : Type} [DecidableEq α] (m : List (α × β)) (k : α) (v : β) :
    List (α × β) :=
  (k, v) :: m.filter (fun p => decide (p.1 ≠ k))

/-- `HashMap::remove`: drop the binding of `k` if present. -/
def hmRemove {α β : Type} [DecidableEq α] (m : List (α × β)) (k : α) :
    List (α × β) :=
  m.filter (fun p => decide (p.1 ≠ k))

/-- The oracle for `hnsw.search(query, k, ef_search)`: a list of
`(d_id, distance)` neighbour pairs for each query / k / ef triple. -/
abbrev Walk := List ℚ → Nat → Nat → List (Nat × ℚ)

/-- Error message built by `insert` / `batch_insert` on a dimension
mismatch. -/
def dimMismatchMsg (expected got : Nat) : String :=
  "Vector dimension mismatch: expected " ++ toString expected ++ ", got "
    ++ toString got

/-- Error message built by `search_with_ef` on a dimension mismatch. -/
def queryMismatchMsg (expected got : Nat) : String :=
  "Query dimension mismatch: expected " ++ toString expected ++ ", got "
    ++ toString got

/-- Error message built by `remove` for an unknown identifier. -/
def notFoundMsg (id : Ident) : String := "ID not found: " ++ id

/-- State of `HnswBackend` in `src/store/hnsw_backend.rs`: the `hnsw_rs`
graph (as the list of points inserted into it), the two maps, the
`next_idx` counter and the collection dimension. -/
structure HB where
  hnsw : List (Nat × List ℚ)
  idToIdx : List (Ident × Nat)
  idxToId : List (Nat × Ident)
  nextIdx : Nat
  dimension : Nat
deriving Repr, DecidableEq

/-- `HnswBackend::new(dimension)`. -/
def HB.new (dimension : Nat) : HB :=
  { hnsw := [], idToIdx := [], idxToId := [], nextIdx := 0,
    dimension := dimension }

/-- The `Remove old entry if exists` step shared by `insert` and the
prepare loop of `batch_insert`: if `id` is currently mapped, drop the
reverse entry of its index. -/
def HB.dropOld (idToIdx : List (Ident × Nat)) (idxToId : List (Nat × Ident))
    (id : Ident) : List (Nat × Ident) :=
  match hmGet idToIdx id with
  | some oldIdx => hmRemove idxToId oldIdx
  | none => idxToId

/-- The state produced by the body of `HnswBackend::insert` once the
dimension check has passed: drop the reverse entry of a previous index for
`id`, assign `next_idx`, bump the counter, add the point to the graph and
record both directions. -/
def HB.insOk (s : HB) (id : Ident) (v : List ℚ) : HB :=
  { hnsw := (s.nextIdx, v) :: s.hnsw
    idToIdx := hmInsert s.idToIdx id s.nextIdx
    idxToId := hmInsert (HB.dropOld s.idToIdx s.idxToId id) s.nextIdx id
    nextIdx := s.nextIdx + 1
    dimension := s.dimension }

/-- `HnswBackend::insert` (hnsw_backend.rs:38-60). -/
def HB.insert (s : HB) (id : Ident) (v : List ℚ) : Except String HB :=
  if 0 < s.dimension ∧ v.length ≠ s.dimension then
    .error (dimMismatchMsg s.dimension v.length)
  else
    .ok (s.insOk id v)

/-- The first `for` loop of `batch_insert` (hnsw_backend.rs:84-94): for
each item, drop the reverse entry of a previous index (looking the id up
in the ORIGINAL `id_to_idx`, which this loop never updates), assign
`next_idx` and bump it, collecting `data_with_idx` triples. -/
def HB.batchPrep (idToIdx : List (Ident × Nat)) :
    List (Nat × Ident) → Nat → List (Ident × List ℚ) →
      List (Nat × Ident) × Nat × List (Ident × List ℚ × Nat)
  | r, n, [] => (r, n, [])
  | r, n, (id, v) :: rest =>
      let res := HB.batchPrep idToIdx (HB.dropOld idToIdx r id) (n + 1) rest
      (res.1, res.2.1, (id, v, n) :: res.2.2)

/-- The mapping-update loop of `batch_insert` (hnsw_backend.rs:105-108):
record both directions for every prepared triple, in order. -/
def HB.applyMaps :
    List (Ident × Nat) → List (Nat × Ident) → List (Ident × List ℚ × Nat) →
      List (Ident × Nat) × List (Nat × Ident)
  | i, r, [] => (i, r)
  | i, r, (id, _, idx) :: rest =>
      HB.applyMaps (hmInsert i id idx) (hmInsert r idx id) rest

/-- `HnswBackend::batch_insert` (hnsw_backend.rs:66-111): empty batches
succeed immediately; all items are dimension-checked up front and the
first invalid one fails the call; otherwise the prepare loop runs, the
points are handed to `parallel_insert`, and the mapping loop runs. -/
def HB.batchInsert (s : HB) (items : List (Ident × List ℚ)) :
    Except String HB :=
  if items.isEmpty then .ok s
  else
    match items.find?
        (fun it => decide (0 < s.dimension) && decide (it.2.length ≠ s.dimension)) with
    | some it => .error (dimMismatchMsg s.dimension it.2.length)
    | none =>
        let pre := HB.batchPrep s.idToIdx s.idxToId s.nextIdx items
        let maps := HB.applyMaps s.idToIdx pre.1 pre.2.2
        .ok { hnsw := pre.2.2.foldl (fun g d => (d.2.2, d.2.1) :: g) s.hnsw,
              idToIdx := maps.1, idxToId := maps.2, nextIdx := pre.2.1,
              dimension := s.dimension }

/-- `HnswBackend::remove` (hnsw_backend.rs:127-137): drop both directions
if the id is mapped (the graph keeps the point), otherwise return the
`ID not found` error. -/
def HB.remove (s : HB) (id : Ident) : Except String HB :=
  match hmGet s.idToIdx id with
  | some idx =>
      .ok { s with idToIdx := hmRemove s.idToIdx id,
                   idxToId := hmRemove s.idxToId idx }
  | none => .error (notFoundMsg id)

/-- `HnswBackend::search_with_ef` (hnsw_backend.rs:149-177): dimension
check, run the graph search, keep only neighbours whose `d_id` is still in
`idx_to_id`, and report `1 - distance` as the score. -/
def HB.searchWithEf (s : HB) (walk : Walk) (query : List ℚ) (k ef : Nat) :
    Except String (List (Ident × ℚ)) :=
  if 0 < s.dimension ∧ query.length ≠ s.dimension then
    .error (queryMismatchMsg s.dimension query.length)
  else
    .ok ((walk query k ef).filterMap (fun nb =>
      (hmGet s.idxToId nb.1).map (fun id => (id, 1 - nb.2))))

/-- The `ef_search` value `HnswBackend::search` hard-codes
(hnsw_backend.rs:140). -/
def HB.defaultEfSearch : Nat := 200

/-- `HnswBackend::search` (hnsw_backend.rs:139-141). -/
def HB.search (s : HB) (walk : Walk) (query : List ℚ) (k : Nat) :
    Except String (List (Ident × ℚ)) :=
  s.searchWithEf walk query k HB.defaultEfSearch

/-- `HnswBackend::rebuild_from_vectors` (hnsw_backend.rs:191-203): clear
both maps and the counter (the `hnsw_rs` graph object is NOT recreated),
then re-insert every pair, stopping at the first error. -/
def HB.rebuildFromVectors (s : HB) (vectors : List (Ident × List ℚ)) :
    Except String HB :=
  let s0 := { s with idToIdx := [], idxToId := [], nextIdx := 0 }
  vectors.foldlM (fun t iv => HB.insert t iv.1 iv.2) s0

/-- `HnswBackend::optimize` (hnsw_backend.rs:120-125): rebuild, then
report the saturating difference of reverse-map sizes. -/
def HB.optimize (s : HB) (vectors : List (Ident × List ℚ)) :
    Except String (HB × Nat) :=
  let oldSize := s.idxToId.length
  (s.rebuildFromVectors vectors).map (fun t => (t, oldSize - t.idxToId.length))

/-- `HnswBackend::restore` (hnsw_backend.rs:228-239): a fresh graph with
the given maps and counter. -/
def HB.restore (dimension : Nat) (idToIdx : List (Ident × Nat))
    (idxToId : List (Nat × Ident)) (nextIdx : Nat) : HB :=
  { hnsw := [], idToIdx := idToIdx, idxToId := idxToId, nextIdx := nextIdx,
    dimension := dimension }

/-- State of `HnswBackend` in `src/store/hnsw_backend_new.rs`: like `HB`
plus the distance metric chosen at construction. -/
structure HBN where
  hnsw : List (Nat × List ℚ)
  idToIdx : List (Ident × Nat)
  idxToId : List (Nat × Ident)
  nextIdx : Nat
  dimension : Nat
  distance : Distance
deriving Repr, DecidableEq

/-- `HnswBackend::new(dimension, distance)` in hnsw_backend_new.rs. -/
def HBN.new (dimension : Nat) (distance : Distance) : HBN :=
  { hnsw := [], idToIdx := [], idxToId := [], nextIdx := 0,
    dimension := dimension, distance := distance }

/-- `HnswBackend::insert` (hnsw_backend_new.rs:51-79): identical logic to
the other backend, dispatching the graph insert on the metric variant. -/
def HBN.insert (s : HBN) (id : Ident) (v : List ℚ) : Except String HBN :=
  if 0 < s.dimension ∧ v.length ≠ s.dimension then
    .error (dimMismatchMsg s.dimension v.length)
  else
    let r0 := match hmGet s.idToIdx id with
      | some oldIdx => hmRemove s.idxToId oldIdx
      | none => s.idxToId
    .ok { s with hnsw := (s.nextIdx, v) :: s.hnsw
                 idToIdx := hmInsert s.idToIdx id s.nextIdx
                 idxToId := hmInsert r0 s.nextIdx id
                 nextIdx := s.nextIdx + 1 }

/-- `HnswBackend::remove` (hnsw_backend_new.rs:81-89). -/
def HBN.remove (s : HBN) (id : Ident) : Except String HBN :=
  match hmGet s.idToIdx id with
  | some idx =>
      .ok { s with idToIdx := hmRemove s.idToIdx id,
                   idxToId := hmRemove s.idxToId idx }
  | none => .error (notFoundMsg id)

/-- The score `search` in hnsw_backend_new.rs:107-113 computes from the
distance the graph reports: the raw distance for `Cosine` and
`DotProduct`, and `1 / (1 + distance)` for `Euclidean`. -/
def scoreOf (d : Distance) (dist : ℚ) : ℚ :=
  match d with
  | .cosine | .dotProduct => dist
  | .euclidean => 1 / (1 + dist)

/-- The `ef_search` value hard-coded in every metric arm of `search` in
hnsw_backend_new.rs:97-99. -/
def HBN.searchEf : Nat := 30

/-- `HnswBackend::search` (hnsw_backend_new.rs:91-118): empty forward map
short-circuits to `[]`; otherwise run the graph search with ef 30, keep
neighbours still present in `idx_to_id`, and apply `scoreOf`.  This
`search` returns a plain list, not a `Result`. -/
def HBN.search (s : HBN) (walk : Walk) (vector : List ℚ) (k : Nat) :
    List (Ident × ℚ) :=
  if s.idToIdx.isEmpty then []
  else
    (walk vector k HBN.searchEf).filterMap (fun nb =>
      (hmGet s.idxToId nb.1).map (fun id => (id, scoreOf s.distance nb.2)))

/-- `HnswBackend::restore` (hnsw_backend_new.rs:163-190). -/
def HBN.restore (dimension : Nat) (distance : Distance)
    (idToIdx : List (Ident × Nat)) (idxToId : List (Nat × Ident))
    (nextIdx : Nat) : HBN :=
  { hnsw := [], idToIdx := idToIdx, idxToId := idxToId, nextIdx := nextIdx,
    dimension := dimension, distance := distance }

/-- One mutating call on the `hnsw_backend.rs` backend. -/
inductive Op where
  | ins (id : Ident) (v : List ℚ)
  | batch (items : List (Ident × List ℚ))
  | rem (id : Ident)
deriving DecidableEq, Repr

/-- Run one call against `&mut self`: on `Err` the state is unchanged. -/
def HB.exec (s : HB) : Op → HB
  | .ins id v => match s.insert id v with | .ok t => t | .error _ => s
  | .batch items => match s.batchInsert items with | .ok t => t | .error _ => s
  | .rem id => match s.remove id with | .ok t => t | .error _ => s

/-- Run a sequence of calls. -/
def HB.execList (s : HB) (ops : List Op) : HB := ops.foldl HB.exec s

/-- A call whose batch (if it is one) names no identifier twice. -/
def BatchOk : Op → Prop
  | .batch items => (items.map Prod.fst).Nodup
  | _ => True

instance (op : Op) : Decidable (BatchOk op) :=
  match op with
  | .ins _ _ => inferInstanceAs (Decidable True)
  | .batch items => inferInstanceAs (Decidable ((items.map Prod.fst).Nodup))
  | .rem _ => inferInstanceAs (Decidable True)

/-- The two maps are inverse bijections on their live entries. -/
def MapsInv (s : HB) : Prop :=
  ∀ id idx, hmGet s.idToIdx id = some idx ↔ hmGet s.idxToId idx = some id

/-- Every internal index the state knows of is below `next_idx`. -/
def IdxBound (s : HB) : Prop :=
  (∀ idx id, hmGet s.idxToId idx = some id → idx < s.nextIdx) ∧
  (∀ p ∈ s.hnsw, p.1 < s.nextIdx)

/-- The combined state invariant. -/
def Good (s : HB) : Prop := MapsInv s ∧ IdxBound s

/-- The triples `batchPrep` collects, by position: item `j` is paired with
index `n + j`. -/
def enumFrom (n : Nat) : List (Ident × List ℚ) → List (Ident × List ℚ × Nat)
  | [] => []
  | (id, v) :: rest => (id, v, n) :: enumFrom (n + 1) rest

/-- The forward bindings a batch starting at index `n` creates. -/
def idxAssign (n : Nat) : List (Ident × List ℚ) → List (Ident × Nat)
  | [] => []
  | (id, _) :: rest => (id, n) :: idxAssign (n + 1) rest

/-- The reverse bindings a batch starting at index `n` creates. -/
def idAssign (n : Nat) : List (Ident × List ℚ) → List (Nat × Ident)
  | [] => []
  | (id, _) :: rest => (n, id) :: idAssign (n + 1) rest

/-! ### Lemmas about the `HashMap` model -/

theorem hmGet_filter_ne {α β : Type} [DecidableEq α] (m : List (α × β))
    (k k2 : α) (h : k2 ≠ k) :
    hmGet (m.filter (fun p => decide (p.1 ≠ k))) k2 = hmGet m k2 := by
  induction m with
  | nil => rfl
  | cons p rest ih =>
      obtain ⟨a, b⟩ := p
      by_cases ha : a = k
      · subst ha
        have hne : a ≠ k2 := fun e => h e.symm
        rw [List.filter_cons_of_neg (by simp)]
        rw [ih]
        simp [hmGet, hne]
      · rw [List.filter_cons_of_pos (by simp [ha])]
        simp only [hmGet]
        rw [ih]

theorem hmGet_insert_self {α β : Type} [DecidableEq α] (m : List (α × β))
    (k : α) (v : β) : hmGet (hmInsert m k v) k = some v := by
  simp [hmInsert, hmGet]

theorem hmGet_insert_ne {α β : Type} [DecidableEq α] (m : List (α × β))
    (k k2 : α) (v : β) (h : k2 ≠ k) :
    hmGet (hmInsert m k v) k2 = hmGet m k2 := by
  have hne : k ≠ k2 := fun e => h e.symm
  simp only [hmInsert, hmGet, hne, if_false]
  exact hmGet_filter_ne m k k2 h

theorem hmGet_remove_self {α β : Type} [DecidableEq α] (m : List (α × β))
    (k : α) : hmGet (hmRemove m k) k = none := by
  induction m with
  | nil => rfl
  | cons p rest ih =>
      obtain ⟨a, b⟩ := p
      by_cases ha : a = k
      · subst ha; simpa [hmRemove, List.filter_cons] using ih
      · simp [hmRemove, List.filter_cons, ha, hmGet, ih] at ih ⊢
        exact ih

theorem hmGet_remove_ne {α β : Type} [DecidableEq α] (m : List (α × β))
    (k k2 : α) (h : k2 ≠ k) :
    hmGet (hmRemove m k) k2 = hmGet m k2 :=
  hmGet_filter_ne m k k2 h

theorem hmGet_remove_eq_some {α β : Type} [DecidableEq α]
    (m : List (α × β)) (k k2 : α) (v : β)
    (h : hmGet (hmRemove m k) k2 = some v) :
    hmGet m k2 = some v ∧ k2 ≠ k := by
  by_cases hk : k2 = k
  · subst hk; rw [hmGet_remove_self] at h; exact absurd h (by simp)
  · rw [hmGet_remove_ne m k k2 hk] at h; exact ⟨h, hk⟩

/-! ### The old-entry drop and the state invariant -/

theorem dropOld_get_some {I : List (Ident × Nat)} {R : List (Nat × Ident)}
    {id : Ident} {i : Nat} {a : Ident}
    (h : hmGet (HB.dropOld I R id) i = some a) : hmGet R i = some a := by
  unfold HB.dropOld at h
  cases hI : hmGet I id with
  | none => rwa [hI] at h
  | some o => rw [hI] at h; exact (hmGet_remove_eq_some R o i a h).1

theorem dropOld_get_iff {I : List (Ident × Nat)} {R : List (Nat × Ident)}
    (hs : ∀ b j, hmGet I b = some j ↔ hmGet R j = some b)
    (id : Ident) (i : Nat) (a : Ident) :
    hmGet (HB.dropOld I R id) i = some a ↔
      hmGet R i = some a ∧ a ≠ id := by
  unfold HB.dropOld
  cases hI : hmGet I id with
  | none =>
      refine ⟨fun h => ⟨h, fun e => ?_⟩, fun h => h.1⟩
      subst e
      rw [(hs a i).mpr h] at hI
      exact Option.noConfusion hI
  | some o =>
      constructor
      · intro h
        obtain ⟨hR, hio⟩ := hmGet_remove_eq_some R o i a h
        refine ⟨hR, fun e => ?_⟩
        subst e
        rw [(hs a i).mpr hR] at hI
        exact hio (Option.some.inj hI)
      · rintro ⟨hR, hne⟩
        have hio : i ≠ o := by
          intro e; subst e
          have := (hs id i).mp hI
          rw [this] at hR
          exact hne (Option.some.inj hR).symm
        rw [hmGet_remove_ne R o i hio]
        exact hR

theorem good_new (d : Nat) : Good (HB.new d) := by
  refine ⟨fun id idx => ?_, fun i a h => ?_, fun p hp => ?_⟩
  · simp [HB.new, hmGet]
  · simp [HB.new, hmGet] at h
  · simp [HB.new] at hp

theorem good_insOk (s : HB) (hs : Good s) (id : Ident) (v : List ℚ) :
    Good (s.insOk id v) := by
  obtain ⟨hInv, hRev, hG⟩ := hs
  refine ⟨fun a i => ?_, fun i a h => ?_, fun p hp => ?_⟩
  · simp only [HB.insOk]
    by_cases hai : a = id
    · subst hai
      rw [hmGet_insert_self]
      by_cases hin : i = s.nextIdx
      · subst hin
        rw [hmGet_insert_self]
        simp
      · rw [hmGet_insert_ne _ _ _ _ hin]
        constructor
        · intro h
          exact absurd (Option.some.inj h).symm hin
        · intro h
          exact absurd ((dropOld_get_iff hInv a i a).mp h).2 (fun e => e rfl)
    · rw [hmGet_insert_ne _ _ _ _ hai]
      by_cases hin : i = s.nextIdx
      · rw [hin, hmGet_insert_self]
        constructor
        · intro h
          exact absurd (hRev s.nextIdx a ((hInv a s.nextIdx).mp h))
            (lt_irrefl s.nextIdx)
        · intro h
          exact absurd (Option.some.inj h).symm hai
      · rw [hmGet_insert_ne _ _ _ _ hin]
        rw [dropOld_get_iff hInv id i a]
        constructor
        · intro h
          exact ⟨(hInv a i).mp h, hai⟩
        · intro h
          exact (hInv a i).mpr h.1
  · simp only [HB.insOk] at h ⊢
    by_cases hin : i = s.nextIdx
    · omega
    · rw [hmGet_insert_ne _ _ _ _ hin] at h
      have := hRev i a (dropOld_get_some h)
      omega
  · simp only [HB.insOk, List.mem_cons] at hp ⊢
    rcases hp with hp | hp
    · subst hp; simp
    · have := hG p hp
      omega

theorem good_remove (s t : HB) (hs : Good s) (id : Ident)
    (h : HB.remove s id = .ok t) : Good t := by
  obtain ⟨hInv, hRev, hG⟩ := hs
  unfold HB.remove at h
  cases hI : hmGet s.idToIdx id with
  | none => rw [hI] at h; exact Except.noConfusion h
  | some idx =>
      rw [hI] at h
      injection h with h
      subst h
      refine ⟨fun a i => ?_, fun i a h2 => ?_, fun p hp => ?_⟩
      · simp only
        by_cases hai : a = id
        · subst hai
          rw [hmGet_remove_self]
          constructor
          · intro h2; exact Option.noConfusion h2
          · intro h2
            obtain ⟨hR, hii⟩ := hmGet_remove_eq_some _ _ _ _ h2
            have := (hInv a i).mpr hR
            rw [this] at hI
            exact absurd (Option.some.inj hI) hii
        · rw [hmGet_remove_ne _ _ _ hai]
          by_cases hii : i = idx
          · subst hii
            rw [hmGet_remove_self]
            constructor
            · intro h2
              have hRa := (hInv a i).mp h2
              have hRid := (hInv id i).mp hI
              rw [hRa] at hRid
              exact absurd (Option.some.inj hRid) hai
            · intro h2; exact Option.noConfusion h2
          · rw [hmGet_remove_ne _ _ _ hii]
            exact hInv a i
      · simp only at h2 ⊢
        obtain ⟨hR, _⟩ := hmGet_remove_eq_some _ _ _ _ h2
        exact hRev i a hR
      · exact hG p hp

/-! ### Characterizing the loops of `batch_insert` -/

theorem dropOld_get_iff_orig (I : List (Ident × Nat)) (r : List (Nat × Ident))
    (id : Ident) (i : Nat) (a : Ident) :
    hmGet (HB.dropOld I r id) i = some a ↔
      hmGet r i = some a ∧ hmGet I id ≠ some i := by
  unfold HB.dropOld
  cases hI : hmGet I id with
  | none => simp
  | some o =>
      constructor
      · intro h
        obtain ⟨hr, hio⟩ := hmGet_remove_eq_some r o i a h
        exact ⟨hr, fun e => hio (Option.some.inj e).symm⟩
      · rintro ⟨hr, hne⟩
        have hio : i ≠ o := fun e => hne (congrArg some e.symm)
        rw [hmGet_remove_ne r o i hio]
        exact hr

theorem batchPrep_nextIdx (I : List (Ident × Nat))
    (items : List (Ident × List ℚ)) :
    ∀ (r : List (Nat × Ident)) (n : Nat),
      (HB.batchPrep I r n items).2.1 = n + items.length := by
  induction items with
  | nil => intro r n; simp [HB.batchPrep]
  | cons it rest ih =>
      intro r n
      obtain ⟨id, v⟩ := it
      simp only [HB.batchPrep, List.length_cons]
      rw [ih]
      omega

theorem batchPrep_data (I : List (Ident × Nat))
    (items : List (Ident × List ℚ)) :
    ∀ (r : List (Nat × Ident)) (n : Nat),
      (HB.batchPrep I r n items).2.2 = enumFrom n items := by
  induction items with
  | nil => intro r n; simp [HB.batchPrep, enumFrom]
  | cons it rest ih =>
      intro r n
      obtain ⟨id, v⟩ := it
      simp only [HB.batchPrep, enumFrom]
      rw [ih]

theorem batchPrep_fst_get (I : List (Ident × Nat))
    (items : List (Ident × List ℚ)) :
    ∀ (r : List (Nat × Ident)) (n i : Nat) (a : Ident),
      hmGet (HB.batchPrep I r n items).1 i = some a ↔
        hmGet r i = some a ∧ ∀ it ∈ items, hmGet I it.1 ≠ some i := by
  induction items with
  | nil => intro r n i a; simp [HB.batchPrep]
  | cons it rest ih =>
      intro r n i a
      obtain ⟨id, v⟩ := it
      simp only [HB.batchPrep]
      rw [ih, dropOld_get_iff_orig, List.forall_mem_cons, and_assoc]

theorem idxAssign_get_none (items : List (Ident × List ℚ)) :
    ∀ (n : Nat) (a : Ident), a ∉ items.map Prod.fst →
      hmGet (idxAssign n items) a = none := by
  induction items with
  | nil => intros; rfl
  | cons it rest ih =>
      intro n a ha
      obtain ⟨id, v⟩ := it
      simp only [List.map_cons, List.mem_cons] at ha
      push_neg at ha
      simp only [idxAssign, hmGet]
      rw [if_neg (fun e => ha.1 e.symm)]
      exact ih (n + 1) a ha.2

theorem idxAssign_get_mem (items : List (Ident × List ℚ)) :
    ∀ (n : Nat) (a : Ident) (x : Nat),
      hmGet (idxAssign n items) a = some x →
        a ∈ items.map Prod.fst ∧ n ≤ x ∧ x < n + items.length := by
  induction items with
  | nil => intro n a x h; exact Option.noConfusion h
  | cons it rest ih =>
      intro n a x h
      obtain ⟨id, v⟩ := it
      simp only [idxAssign, hmGet] at h
      by_cases he : id = a
      · rw [if_pos he] at h
        have hx := Option.some.inj h
        subst he
        refine ⟨List.mem_cons.mpr (Or.inl rfl), ?_⟩
        simp only [List.length_cons]
        omega
      · rw [if_neg he] at h
        obtain ⟨hm, hx1, hx2⟩ := ih (n + 1) a x h
        simp only [List.map_cons, List.mem_cons, List.length_cons]
        exact ⟨Or.inr hm, by omega⟩

theorem idAssign_get_none_lt (items : List (Ident × List ℚ)) :
    ∀ (n i : Nat), i < n → hmGet (idAssign n items) i = none := by
  induction items with
  | nil => intros; rfl
  | cons it rest ih =>
      intro n i hi
      obtain ⟨id, v⟩ := it
      simp only [idAssign, hmGet]
      rw [if_neg (by omega)]
      exact ih (n + 1) i (by omega)

theorem idAssign_get_mem (items : List (Ident × List ℚ)) :
    ∀ (n i : Nat) (a : Ident),
      hmGet (idAssign n items) i = some a →
        a ∈ items.map Prod.fst ∧ n ≤ i ∧ i < n + items.length := by
  induction items with
  | nil => intro n i a h; exact Option.noConfusion h
  | cons it rest ih =>
      intro n i a h
      obtain ⟨id, v⟩ := it
      simp only [idAssign, hmGet] at h
      by_cases he : n = i
      · rw [if_pos he] at h
        have ha := Option.some.inj h
        subst ha
        refine ⟨List.mem_cons.mpr (Or.inl rfl), ?_⟩
        simp only [List.length_cons]
        omega
      · rw [if_neg he] at h
        obtain ⟨hm, hx1, hx2⟩ := ih (n + 1) i a h
        simp only [List.map_cons, List.mem_cons, List.length_cons]
        exact ⟨Or.inr hm, by omega⟩

theorem idxAssign_idAssign_dual (items : List (Ident × List ℚ)) :
    ∀ (n : Nat), (items.map Prod.fst).Nodup →
      ∀ (a : Ident) (x : Nat),
        hmGet (idxAssign n items) a = some x ↔
          hmGet (idAssign n items) x = some a := by
  induction items with
  | nil => intro n _ a x; simp [idxAssign, idAssign, hmGet]
  | cons it rest ih =>
      intro n hnd a x
      obtain ⟨id, v⟩ := it
      simp only [List.map_cons, List.nodup_cons] at hnd
      obtain ⟨hid, hnd⟩ := hnd
      simp only [idxAssign, idAssign, hmGet]
      constructor
      · intro h
        by_cases he : id = a
        · rw [if_pos he] at h
          have hx := Option.some.inj h
          rw [if_pos hx, he]
        · rw [if_neg he] at h
          have hx := (idxAssign_get_mem rest (n + 1) a x h).2.1
          rw [if_neg (by omega)]
          exact (ih (n + 1) hnd a x).mp h
      · intro h
        by_cases hx : n = x
        · rw [if_pos hx] at h
          have ha := Option.some.inj h
          rw [if_pos ha, hx]
        · rw [if_neg hx] at h
          have ha := (idAssign_get_mem rest (n + 1) x a h).1
          have hne : id ≠ a := fun e => hid (e ▸ ha)
          rw [if_neg hne]
          exact (ih (n + 1) hnd a x).mpr h

theorem applyMaps_fst_get (items : List (Ident × List ℚ)) :
    ∀ (n : Nat), (items.map Prod.fst).Nodup →
      ∀ (i0 : List (Ident × Nat)) (r0 : List (Nat × Ident)) (a : Ident),
        hmGet (HB.applyMaps i0 r0 (enumFrom n items)).1 a =
          match hmGet (idxAssign n items) a with
          | some x => some x
          | none => hmGet i0 a := by
  induction items with
  | nil => intro n _ i0 r0 a; rfl
  | cons it rest ih =>
      intro n hnd i0 r0 a
      obtain ⟨id, v⟩ := it
      simp only [List.map_cons, List.nodup_cons] at hnd
      obtain ⟨hid, hnd⟩ := hnd
      simp only [enumFrom, HB.applyMaps, idxAssign, hmGet]
      rw [ih (n + 1) hnd]
      by_cases he : id = a
      · rw [if_pos he]
        rw [idxAssign_get_none rest (n + 1) a (he ▸ hid)]
        rw [he, hmGet_insert_self]
      · rw [if_neg he]
        cases hx : hmGet (idxAssign (n + 1) rest) a with
        | some x => rfl
        | none => simp only [hmGet_insert_ne i0 id a n (fun e => he e.symm)]

theorem applyMaps_snd_get (items : List (Ident × List ℚ)) :
    ∀ (n : Nat) (i0 : List (Ident × Nat)) (r0 : List (Nat × Ident)) (i : Nat),
      hmGet (HB.applyMaps i0 r0 (enumFrom n items)).2 i =
        match hmGet (idAssign n items) i with
        | some b => some b
        | none => hmGet r0 i := by
  induction items with
  | nil => intro n i0 r0 i; rfl
  | cons it rest ih =>
      intro n i0 r0 i
      obtain ⟨id, v⟩ := it
      simp only [enumFrom, HB.applyMaps, idAssign, hmGet]
      rw [ih (n + 1)]
      by_cases he : n = i
      · rw [if_pos he]
        rw [idAssign_get_none_lt rest (n + 1) i (by omega)]
        rw [← he, hmGet_insert_self]
      · rw [if_neg he]
        cases hx : hmGet (idAssign (n + 1) rest) i with
        | some b => rfl
        | none => simp only [hmGet_insert_ne r0 n i id (fun e => he e.symm)]

theorem foldl_graph_mem (ds : List (Ident × List ℚ × Nat)) :
    ∀ (g : List (Nat × List ℚ)) (p : Nat × List ℚ),
      p ∈ ds.foldl (fun g d => (d.2.2, d.2.1) :: g) g ↔
        p ∈ g ∨ ∃ d ∈ ds, p = (d.2.2, d.2.1) := by
  induction ds with
  | nil => simp
  | cons d rest ih =>
      intro g p
      simp only [List.foldl_cons]
      rw [ih]
      constructor
      · intro h
        rcases h with h | ⟨d2, hd2, hp⟩
        · rcases List.mem_cons.mp h with h | h
          · exact Or.inr ⟨d, List.mem_cons_self d rest, h⟩
          · exact Or.inl h
        · exact Or.inr ⟨d2, List.mem_cons_of_mem d hd2, hp⟩
      · intro h
        rcases h with h | ⟨d2, hd2, hp⟩
        · exact Or.inl (List.mem_cons_of_mem _ h)
        · rcases List.mem_cons.mp hd2 with h2 | h2
          · subst h2
            exact Or.inl (List.mem_cons.mpr (Or.inl hp))
          · exact Or.inr ⟨d2, h2, hp⟩

theorem enumFrom_mem_range (items : List (Ident × List ℚ)) :
    ∀ (n : Nat) (d : Ident × List ℚ × Nat), d ∈ enumFrom n items →
      n ≤ d.2.2 ∧ d.2.2 < n + items.length := by
  induction items with
  | nil => intro n d h; simp [enumFrom] at h
  | cons it rest ih =>
      intro n d h
      obtain ⟨id, v⟩ := it
      simp only [enumFrom, List.mem_cons] at h
      rcases h with h | h
      · subst h; simp only [List.length_cons]; omega
      · have := ih (n + 1) d h
        simp only [List.length_cons]
        omega

theorem enumFrom_get_mem (items : List (Ident × List ℚ)) :
    ∀ (n j : Nat) (hj : j < items.length),
      ((items.get ⟨j, hj⟩).1, (items.get ⟨j, hj⟩).2, n + j) ∈
        enumFrom n items := by
  induction items with
  | nil => intro n j hj; exact absurd hj (by simp)
  | cons it rest ih =>
      intro n j hj
      obtain ⟨id, v⟩ := it
      cases j with
      | zero => simp [enumFrom, List.get]
      | succ j2 =>
          have hj2 : j2 < rest.length := by
            simpa [List.length_cons] using hj
          have := ih (n + 1) j2 hj2
          simp only [enumFrom, List.mem_cons, List.get]
          right
          have he : n + 1 + j2 = n + (j2 + 1) := by omega
          rw [← he]
          exact this

theorem idxAssign_get_of_mem (items : List (Ident × List ℚ)) :
    ∀ (n : Nat) (a : Ident), a ∈ items.map Prod.fst →
      ∃ x, hmGet (idxAssign n items) a = some x := by
  induction items with
  | nil => intro n a ha; simp at ha
  | cons it rest ih =>
      intro n a ha
      obtain ⟨id, v⟩ := it
      simp only [idxAssign, hmGet]
      by_cases he : id = a
      · exact ⟨n, by rw [if_pos he]⟩
      · have h2 : a ∈ rest.map Prod.fst := by
          simp only [List.map_cons] at ha
          rcases List.mem_cons.mp ha with h | h
          · exact absurd h.symm he
          · exact h
        rcases ih (n + 1) a h2 with ⟨x, hx⟩
        exact ⟨x, by rw [if_neg he]; exact hx⟩

theorem batchInsert_ok_cases (s t : HB) (items : List (Ident × List ℚ))
    (h : HB.batchInsert s items = .ok t) :
    (items = [] ∧ t = s) ∨
    (items ≠ [] ∧
     (∀ it ∈ items, ¬(0 < s.dimension ∧ it.2.length ≠ s.dimension)) ∧
     t.hnsw = (enumFrom s.nextIdx items).foldl
       (fun g d => (d.2.2, d.2.1) :: g) s.hnsw ∧
     t.idToIdx = (HB.applyMaps s.idToIdx
       (HB.batchPrep s.idToIdx s.idxToId s.nextIdx items).1
       (enumFrom s.nextIdx items)).1 ∧
     t.idxToId = (HB.applyMaps s.idToIdx
       (HB.batchPrep s.idToIdx s.idxToId s.nextIdx items).1
       (enumFrom s.nextIdx items)).2 ∧
     t.nextIdx = s.nextIdx + items.length ∧
     t.dimension = s.dimension) := by
  unfold HB.batchInsert at h
  by_cases he : items.isEmpty
  · rw [if_pos he] at h
    injection h with h
    exact Or.inl ⟨List.isEmpty_iff.mp he, h.symm⟩
  · rw [if_neg he] at h
    cases hf : items.find?
        (fun it => decide (0 < s.dimension) && decide (it.2.length ≠ s.dimension)) with
    | some it =>
        rw [hf] at h
        exact Except.noConfusion h
    | none =>
        rw [hf] at h
        injection h with h
        subst h
        refine Or.inr ⟨fun e => he (by simp [e]), fun it hit => ?_,
          ?_, ?_, ?_, ?_, rfl⟩
        · have h2 := List.find?_eq_none.mp hf it hit
          simp only [Bool.and_eq_true, decide_eq_true_eq] at h2
          tauto
        all_goals
          simp only [batchPrep_data, batchPrep_nextIdx]

theorem idxBound_batch (s t : HB) (hb : IdxBound s)
    (items : List (Ident × List ℚ)) (h : HB.batchInsert s items = .ok t) :
    IdxBound t := by
  obtain ⟨hRev, hG⟩ := hb
  rcases batchInsert_ok_cases s t items h with ⟨_, ht⟩ | ⟨_, _, hg, _, hr, hn, _⟩
  · subst ht; exact ⟨hRev, hG⟩
  · constructor
    · intro i a h2
      rw [hr, applyMaps_snd_get items s.nextIdx] at h2
      rw [hn]
      cases hx : hmGet (idAssign s.nextIdx items) i with
      | some b =>
          have := idAssign_get_mem items s.nextIdx i b hx
          omega
      | none =>
          rw [hx] at h2
          have h3 := (batchPrep_fst_get s.idToIdx items s.idxToId
            s.nextIdx i a).mp h2
          have := hRev i a h3.1
          omega
    · intro p hp
      rw [hg, foldl_graph_mem] at hp
      rw [hn]
      rcases hp with hp | ⟨d2, hd2, hp⟩
      · have := hG p hp
        omega
      · have := enumFrom_mem_range items s.nextIdx d2 hd2
        rw [hp]
        omega

theorem good_batch (s t : HB) (hs : Good s)
    (items : List (Ident × List ℚ)) (hnd : (items.map Prod.fst).Nodup)
    (h : HB.batchInsert s items = .ok t) : Good t := by
  obtain ⟨hInv, hb⟩ := hs
  obtain ⟨hRev, hG⟩ := hb
  refine ⟨?_, idxBound_batch s t ⟨hRev, hG⟩ items h⟩
  rcases batchInsert_ok_cases s t items h with ⟨_, ht⟩ | ⟨_, _, _, hi, hr, _, _⟩
  · subst ht; exact hInv
  · intro a i
    rw [hi, hr, applyMaps_fst_get items s.nextIdx hnd,
      applyMaps_snd_get items s.nextIdx]
    cases hxa : hmGet (idxAssign s.nextIdx items) a with
    | some x =>
        have hdual := (idxAssign_idAssign_dual items s.nextIdx hnd a x).mp hxa
        cases hxi : hmGet (idAssign s.nextIdx items) i with
        | some b =>
            simp only [Option.some.injEq]
            constructor
            · intro hix
              rw [hix] at hdual
              rw [hxi] at hdual
              exact Option.some.inj hdual
            · intro hba
              rw [hba] at hxi
              have h3 := (idxAssign_idAssign_dual items s.nextIdx hnd a i).mpr hxi
              rw [h3] at hxa
              exact (Option.some.inj hxa).symm
        | none =>
            simp only [Option.some.injEq]
            constructor
            · intro hix
              rw [hix] at hdual
              rw [hxi] at hdual
              exact Option.noConfusion hdual
            · intro h2
              have h3 := (batchPrep_fst_get s.idToIdx items s.idxToId
                s.nextIdx i a).mp h2
              have ha := (idxAssign_get_mem items s.nextIdx a x hxa).1
              obtain ⟨it, hit, hita⟩ := List.mem_map.mp ha
              have h4 := h3.2 it hit
              rw [hita] at h4
              exact absurd ((hInv a i).mpr h3.1) h4
    | none =>
        cases hxi : hmGet (idAssign s.nextIdx items) i with
        | some b =>
            simp only [Option.some.injEq]
            constructor
            · intro h2
              have hR := (hInv a i).mp h2
              have hlt := hRev i a hR
              have hge := (idAssign_get_mem items s.nextIdx i b hxi).2.1
              exfalso
              omega
            · intro hba
              rw [hba] at hxi
              have h3 := (idxAssign_idAssign_dual items s.nextIdx hnd a i).mpr hxi
              rw [h3] at hxa
              exact Option.noConfusion hxa
        | none =>
            simp only
            rw [batchPrep_fst_get s.idToIdx items s.idxToId s.nextIdx i a]
            constructor
            · intro h2
              refine ⟨(hInv a i).mp h2, fun it hit hbad => ?_⟩
              have hR := (hInv it.1 i).mp hbad
              have hR2 := (hInv a i).mp h2
              rw [hR2] at hR
              have hia := Option.some.inj hR
              have hmem : a ∈ items.map Prod.fst :=
                List.mem_map.mpr ⟨it, hit, hia.symm⟩
              rcases idxAssign_get_of_mem items s.nextIdx a hmem with ⟨x, hx⟩
              rw [hx] at hxa
              exact Option.noConfusion hxa
            · intro h2
              exact (hInv a i).mpr h2.1

/-! ### Invariants along arbitrary call sequences -/

theorem insert_ok_cases (s t : HB) (id : Ident) (v : List ℚ)
    (h : HB.insert s id v = .ok t) : t = s.insOk id v := by
  unfold HB.insert at h
  by_cases hc : 0 < s.dimension ∧ v.length ≠ s.dimension
  · rw [if_pos hc] at h
    exact Except.noConfusion h
  · rw [if_neg hc] at h
    injection h with h
    exact h.symm

theorem idxBound_insOk (s : HB) (hb : IdxBound s) (id : Ident) (v : List ℚ) :
    IdxBound (s.insOk id v) := by
  obtain ⟨hRev, hG⟩ := hb
  constructor
  · intro i a h
    simp only [HB.insOk] at h ⊢
    by_cases hin : i = s.nextIdx
    · omega
    · rw [hmGet_insert_ne _ _ _ _ hin] at h
      have := hRev i a (dropOld_get_some h)
      omega
  · intro p hp
    simp only [HB.insOk, List.mem_cons] at hp ⊢
    rcases hp with hp | hp
    · rw [hp]; simp
    · have := hG p hp
      omega

theorem idxBound_remove (s t : HB) (hb : IdxBound s) (id : Ident)
    (h : HB.remove s id = .ok t) : IdxBound t := by
  obtain ⟨hRev, hG⟩ := hb
  unfold HB.remove at h
  cases hI : hmGet s.idToIdx id with
  | none => rw [hI] at h; exact Except.noConfusion h
  | some idx =>
      rw [hI] at h
      injection h with h
      subst h
      refine ⟨fun i a h2 => ?_, hG⟩
      obtain ⟨hR, _⟩ := hmGet_remove_eq_some _ _ _ _ h2
      exact hRev i a hR

theorem good_exec (s : HB) (op : Op) (hs : Good s) (hop : BatchOk op) :
    Good (s.exec op) := by
  cases op with
  | ins id v =>
      simp only [HB.exec]
      cases h : HB.insert s id v with
      | ok t =>
          have ht := insert_ok_cases s t id v h
          subst ht
          exact good_insOk s hs id v
      | error e => exact hs
  | batch items =>
      simp only [HB.exec]
      cases h : HB.batchInsert s items with
      | ok t => exact good_batch s t hs items hop h
      | error e => exact hs
  | rem id =>
      simp only [HB.exec]
      cases h : HB.remove s id with
      | ok t => exact good_remove s t hs id h
      | error e => exact hs

theorem idxBound_exec (s : HB) (op : Op) (hb : IdxBound s) :
    IdxBound (s.exec op) := by
  cases op with
  | ins id v =>
      simp only [HB.exec]
      cases h : HB.insert s id v with
      | ok t =>
          have ht := insert_ok_cases s t id v h
          subst ht
          exact idxBound_insOk s hb id v
      | error e => exact hb
  | batch items =>
      simp only [HB.exec]
      cases h : HB.batchInsert s items with
      | ok t => exact idxBound_batch s t hb items h
      | error e => exact hb
  | rem id =>
      simp only [HB.exec]
      cases h : HB.remove s id with
      | ok t => exact idxBound_remove s t hb id h
      | error e => exact hb

theorem good_execList (ops : List Op) :
    ∀ (s : HB), Good s → (∀ op ∈ ops, BatchOk op) →
      Good (HB.execList s ops) := by
  induction ops with
  | nil => intro s hs _; exact hs
  | cons op rest ih =>
      intro s hs hops
      exact ih (s.exec op)
        (good_exec s op hs (hops op (List.mem_cons_self op rest)))
        (fun op2 h2 => hops op2 (List.mem_cons_of_mem op h2))

theorem idxBound_execList (ops : List Op) :
    ∀ (s : HB), IdxBound s → IdxBound (HB.execList s ops) := by
  induction ops with
  | nil => intro s hb; exact hb
  | cons op rest ih =>
      intro s hb
      exact ih (s.exec op) (idxBound_exec s op hb)

theorem exec_rem_nextIdx (s : HB) (id : Ident) :
    (s.exec (Op.rem id)).nextIdx = s.nextIdx := by
  simp only [HB.exec]
  cases h : HB.remove s id with
  | ok t =>
      unfold HB.remove at h
      cases hI : hmGet s.idToIdx id with
      | none => rw [hI] at h; exact Except.noConfusion h
      | some idx =>
          rw [hI] at h
          injection h with h
          subst h
          rfl
  | error e => rfl

/-! ### Claim theorems -/

/-- C1. The spec says the score a search returns is `1 - distance` for the
cosine and dot-product metrics and `1/(1+distance)` for squared Euclidean.
In the multi-metric backend (`hnsw_backend_new.rs`) the Cosine and
DotProduct arms return the raw distance instead: a neighbour at graph
distance `1/4` under cosine is emitted with score `1/4`, not the claimed
`3/4`.  The Euclidean arm does apply `1/(1+d)`, and the single-metric
backend (`hnsw_backend.rs`) does apply `1 - d`. -/
theorem C1_score_divergence :
    scoreOf Distance.cosine (1/4) = 1/4 ∧
    scoreOf Distance.dotProduct (1/4) = 1/4 ∧
    scoreOf Distance.euclidean (1/4) = 4/5 ∧
    HBN.search (HBN.restore 3 Distance.cosine [("a", 0)] [(0, "a")] 1)
      (fun _ _ _ => [(0, 1/4)]) [0, 0, 0] 1 = [("a", 1/4)] ∧
    ((1 : ℚ) - 1/4 = 3/4) ∧ ((1 : ℚ)/4 ≠ 3/4) ∧
    HB.searchWithEf (HB.restore 3 [("a", 0)] [(0, "a")] 1)
      (fun _ _ _ => [(0, 1/4)]) [0, 0, 0] 1 200 = .ok [("a", 3/4)] := by
  refine ⟨rfl, rfl, by norm_num [scoreOf], ?_, by norm_num, by norm_num, ?_⟩
  · norm_num [HBN.search, HBN.restore, HBN.searchEf, hmGet, scoreOf,
      List.filterMap_cons, List.filterMap_nil]
  · norm_num [HB.searchWithEf, HB.restore, hmGet, List.filterMap_cons,
      List.filterMap_nil]

/-- C2. If any item of a batch has a vector whose length differs from the
backend's positive dimension, `batch_insert` returns an error and the
state (all four components) is exactly as before the call. -/
theorem C2_batch_dimension_check (s : HB) (items : List (Ident × List ℚ))
    (bad : Ident × List ℚ) (hmem : bad ∈ items)
    (hdim : 0 < s.dimension) (hlen : bad.2.length ≠ s.dimension) :
    (∃ e, HB.batchInsert s items = .error e) ∧
    HB.exec s (Op.batch items) = s := by
  have hne : items.isEmpty = false := by
    cases items with
    | nil => exact absurd hmem (List.not_mem_nil bad)
    | cons a l => rfl
  have hfind : (items.find? (fun it => decide (0 < s.dimension) &&
      decide (it.2.length ≠ s.dimension))).isSome := by
    rw [List.find?_isSome]
    exact ⟨bad, hmem, by simp [hdim, hlen]⟩
  obtain ⟨it, hit⟩ := Option.isSome_iff_exists.mp hfind
  have herr : HB.batchInsert s items =
      .error (dimMismatchMsg s.dimension it.2.length) := by
    unfold HB.batchInsert
    rw [if_neg (by simp [hne]), hit]
  refine ⟨⟨_, herr⟩, ?_⟩
  simp only [HB.exec]
  rw [herr]

theorem C2_batch_dimension_check_witness :
    ((("a", [(1 : ℚ)]) ∈ [("a", [(1 : ℚ)])]) ∧ 0 < (HB.new 2).dimension ∧
      (("a", [(1 : ℚ)]).2.length ≠ (HB.new 2).dimension)) ∧
    ((∃ e, HB.batchInsert (HB.new 2) [("a", [(1 : ℚ)])] = .error e) ∧
      HB.exec (HB.new 2) (Op.batch [("a", [(1 : ℚ)])]) = HB.new 2) :=
  ⟨⟨by decide, by decide, by decide⟩,
   C2_batch_dimension_check (HB.new 2) [("a", [1])] ("a", [1])
     (by decide) (by decide) (by decide)⟩

/-- C5 (counterexample). The spec claims removing an unknown identifier
is an absent outcome, not an error; but `remove` returns the
`ID not found` error in both backends. -/
theorem C5_counterexample :
    HB.remove (HB.new 3) "a" = .error "ID not found: a" ∧
    HBN.remove (HBN.new 3 Distance.cosine) "a" =
      .error "ID not found: a" := by
  constructor <;> rfl

/-- C5 (amended). Removing an identifier with no live mapping returns the
`ID not found: {id}` error — the same `Result` error channel as dimension
mismatches — and leaves the backend state unchanged. -/
theorem C5_remove_unknown (s : HB) (id : Ident)
    (h : hmGet s.idToIdx id = none)
    (t : HBN) (h2 : hmGet t.idToIdx id = none) :
    HB.remove s id = .error (notFoundMsg id) ∧
    HB.exec s (Op.rem id) = s ∧
    HBN.remove t id = .error (notFoundMsg id) := by
  have hr : HB.remove s id = .error (notFoundMsg id) := by
    unfold HB.remove
    rw [h]
  refine ⟨hr, ?_, ?_⟩
  · simp only [HB.exec]
    rw [hr]
  · unfold HBN.remove
    rw [h2]

theorem C5_remove_unknown_witness :
    (hmGet (HB.new 3).idToIdx "a" = none ∧
      hmGet (HBN.new 3 Distance.cosine).idToIdx "a" = none) ∧
    (HB.remove (HB.new 3) "a" = .error (notFoundMsg "a") ∧
     HB.exec (HB.new 3) (Op.rem "a") = HB.new 3 ∧
     HBN.remove (HBN.new 3 Distance.cosine) "a" =
       .error (notFoundMsg "a")) :=
  ⟨⟨rfl, rfl⟩,
   C5_remove_unknown (HB.new 3) "a" rfl (HBN.new 3 Distance.cosine) rfl⟩

/-- C6. On a backend with no live elements, a query of the right dimension
returns the empty list and no error: the multi-metric backend
short-circuits on an empty forward map (its `search` cannot fail at all),
and the single-metric backend filters every candidate through the empty
reverse map. -/
theorem C6_empty_search (s : HB) (walk : Walk) (query : List ℚ) (k ef : Nat)
    (hdim : s.dimension = 0 ∨ query.length = s.dimension)
    (hrev : s.idxToId = [])
    (t : HBN) (walk2 : Walk) (q2 : List ℚ) (k2 : Nat)
    (hfwd : t.idToIdx = []) :
    HB.searchWithEf s walk query k ef = .ok [] ∧
    HBN.search t walk2 q2 k2 = [] := by
  constructor
  · unfold HB.searchWithEf
    rw [if_neg (by rcases hdim with h | h <;> simp [h])]
    congr 1
    rw [List.filterMap_eq_nil_iff]
    intro nb _
    rw [hrev]
    rfl
  · unfold HBN.search
    rw [if_pos (by rw [hfwd]; rfl)]

theorem C6_empty_search_witness :
    (((HB.new 2).dimension = 0 ∨ ([(1 : ℚ), 2] : List ℚ).length =
        (HB.new 2).dimension) ∧
      (HB.new 2).idxToId = [] ∧ (HBN.new 4 Distance.euclidean).idToIdx = []) ∧
    (HB.searchWithEf (HB.new 2) (fun _ _ _ => [(0, 1)]) [(1 : ℚ), 2] 5 200 =
        .ok [] ∧
      HBN.search (HBN.new 4 Distance.euclidean) (fun _ _ _ => [(0, 1)])
        [(1 : ℚ), 2, 3, 4] 5 = []) :=
  ⟨⟨Or.inr (by decide), rfl, rfl⟩,
   C6_empty_search (HB.new 2) (fun _ _ _ => [(0, 1)]) [1, 2] 5 200
     (Or.inr (by decide)) rfl (HBN.new 4 Distance.euclidean)
     (fun _ _ _ => [(0, 1)]) [1, 2, 3, 4] 5 rfl⟩

/-- C7 (counterexample). The spec claims the default dynamic
candidate-list size is 200 and the size used is at least `k`.  The
multi-metric backend's `search` (which takes no `ef_search` parameter)
hard-codes 30: a walk oracle that reports its own `ef` argument as the
candidate index hits the live index 30, not 200.  The single-metric
backend's default `search` passes 200 even when `k = 300 > 200`. -/
theorem C7_counterexample :
    HBN.search (HBN.restore 2 Distance.cosine [("x", 30)] [(30, "x")] 31)
      (fun _ _ ef => [(ef, 0)]) [0, 0] 5 = [("x", 0)] ∧
    HB.search (HB.restore 2 [("y", 200)] [(200, "y")] 201)
      (fun _ _ ef => [(ef, 1)]) [0, 0] 300 = .ok [("y", 0)] ∧
    HBN.searchEf ≠ HB.defaultEfSearch ∧
    HB.defaultEfSearch < 300 := by
  refine ⟨?_, ?_, by decide, by decide⟩
  · norm_num [HBN.search, HBN.restore, HBN.searchEf, hmGet, scoreOf,
      List.filterMap_cons, List.filterMap_nil]
  · norm_num [HB.search, HB.searchWithEf, HB.restore, HB.defaultEfSearch,
      hmGet, List.filterMap_cons, List.filterMap_nil]

/-- C7 (amended). A `search` call on the single-metric backend performs
the graph search with the constant `ef_search = 200`; the multi-metric
backend's `search` always uses the constant 30.  Neither constant depends
on `k`, so the size used is not clamped to at least `k`. -/
theorem C7_ef_constants (s : HB) (walk : Walk) (query : List ℚ) (k : Nat)
    (t : HBN) (hne : t.idToIdx ≠ []) (walk2 : Walk) (q2 : List ℚ)
    (k2 : Nat) :
    HB.search s walk query k = HB.searchWithEf s walk query k 200 ∧
    HB.defaultEfSearch = 200 ∧
    HBN.searchEf = 30 ∧
    HBN.search t walk2 q2 k2 = (walk2 q2 k2 30).filterMap (fun nb =>
      (hmGet t.idxToId nb.1).map
        (fun id => (id, scoreOf t.distance nb.2))) := by
  refine ⟨rfl, rfl, rfl, ?_⟩
  unfold HBN.search
  rw [if_neg (by simp [List.isEmpty_iff, hne])]
  rfl

theorem C7_ef_constants_witness :
    ((HBN.restore 2 Distance.cosine [("x", 30)] [(30, "x")] 31).idToIdx ≠
      []) ∧
    (HB.search (HB.new 2) (fun _ _ _ => []) [1, 2] 4 =
       HB.searchWithEf (HB.new 2) (fun _ _ _ => []) [1, 2] 4 200 ∧
     HB.defaultEfSearch = 200 ∧
     HBN.searchEf = 30 ∧
     HBN.search (HBN.restore 2 Distance.cosine [("x", 30)] [(30, "x")] 31)
       (fun _ _ _ => []) [0, 0] 4 = ((fun (_ : List ℚ) (_ : Nat) (_ : Nat) =>
         ([] : List (Nat × ℚ))) [0, 0] 4 30).filterMap (fun nb =>
       (hmGet (HBN.restore 2 Distance.cosine [("x", 30)]
         [(30, "x")] 31).idxToId nb.1).map (fun id => (id,
           scoreOf (HBN.restore 2 Distance.cosine [("x", 30)]
             [(30, "x")] 31).distance nb.2)))) :=
  ⟨by decide,
   C7_ef_constants (HB.new 2) (fun _ _ _ => []) [1, 2] 4
     (HBN.restore 2 Distance.cosine [("x", 30)] [(30, "x")] 31)
     (by decide) (fun _ _ _ => []) [0, 0] 4⟩

/-- C10. With dimension 0 neither backend validates vector or query
lengths: `insert` succeeds for a vector of any length, `search_with_ef`
never returns the query-mismatch error, and vectors of lengths 1 and 2
coexist in one backend. -/
theorem C10_dimension_zero (s : HB) (hd : s.dimension = 0) (id : Ident)
    (v : List ℚ) (walk : Walk) (query : List ℚ) (k ef : Nat)
    (t : HBN) (ht : t.dimension = 0) (id2 : Ident) (v2 : List ℚ) :
    HB.insert s id v = .ok (s.insOk id v) ∧
    (∃ r, HB.searchWithEf s walk query k ef = .ok r) ∧
    (∃ u, HBN.insert t id2 v2 = .ok u) ∧
    hmGet (HB.exec (HB.exec (HB.new 0) (Op.ins "a" [1]))
      (Op.ins "b" [1, 2])).idToIdx "a" = some 0 ∧
    hmGet (HB.exec (HB.exec (HB.new 0) (Op.ins "a" [1]))
      (Op.ins "b" [1, 2])).idToIdx "b" = some 1 := by
  refine ⟨?_, ?_, ?_, by decide, by decide⟩
  · unfold HB.insert
    rw [if_neg (by simp [hd])]
  · unfold HB.searchWithEf
    rw [if_neg (by simp [hd])]
    exact ⟨_, rfl⟩
  · unfold HBN.insert
    rw [if_neg (by simp [ht])]
    exact ⟨_, rfl⟩

theorem C10_dimension_zero_witness :
    ((HB.new 0).dimension = 0 ∧ (HBN.new 0 Distance.dotProduct).dimension
      = 0) ∧
    (HB.insert (HB.new 0) "a" [1, 2, 3] =
        .ok ((HB.new 0).insOk "a" [1, 2, 3]) ∧
     (∃ r, HB.searchWithEf (HB.new 0) (fun _ _ _ => []) [1] 3 200 =
        .ok r) ∧
     (∃ u, HBN.insert (HBN.new 0 Distance.dotProduct) "b" [5] = .ok u) ∧
     hmGet (HB.exec (HB.exec (HB.new 0) (Op.ins "a" [1]))
       (Op.ins "b" [1, 2])).idToIdx "a" = some 0 ∧
     hmGet (HB.exec (HB.exec (HB.new 0) (Op.ins "a" [1]))
       (Op.ins "b" [1, 2])).idToIdx "b" = some 1) :=
  ⟨⟨rfl, rfl⟩,
   C10_dimension_zero (HB.new 0) rfl "a" [1, 2, 3] (fun _ _ _ => []) [1]
     3 200 (HBN.new 0 Distance.dotProduct) rfl "b" [5]⟩

/-- C3 (counterexample). A single batch naming the same identifier twice
breaks the inverse-bijection invariant: both internal indices 0 and 1
stay live in the reverse map while the forward map holds only the second.
The prepare loop of `batch_insert` looks old indices up in the original
`id_to_idx`, which does not yet contain the first occurrence. -/
theorem C3_counterexample :
    ¬ MapsInv (HB.exec (HB.new 0) (Op.batch [("a", []), ("a", [])])) ∧
    hmGet (HB.exec (HB.new 0)
      (Op.batch [("a", []), ("a", [])])).idxToId 0 = some "a" ∧
    hmGet (HB.exec (HB.new 0)
      (Op.batch [("a", []), ("a", [])])).idxToId 1 = some "a" := by
  refine ⟨fun h => ?_, by decide, by decide⟩
  have h0 : hmGet (HB.exec (HB.new 0)
      (Op.batch [("a", []), ("a", [])])).idxToId 0 = some "a" := by decide
  have h2 := (h "a" 0).mpr h0
  have h1 : hmGet (HB.exec (HB.new 0)
      (Op.batch [("a", []), ("a", [])])).idToIdx "a" = some 1 := by decide
  rw [h2] at h1
  exact absurd (Option.some.inj h1) (by decide)

/-- C4 (counterexample). After the duplicate-identifier batch of
`C3_counterexample` and a `remove("a")`, the stale reverse entry
`0 ↦ "a"` survives, so a search whose walk reaches index 0 emits the
removed identifier `"a"`. -/
theorem C4_counterexample :
    hmGet (HB.exec (HB.exec (HB.new 0) (Op.batch [("a", []), ("a", [])]))
      (Op.rem "a")).idToIdx "a" = none ∧
    HB.searchWithEf (HB.exec (HB.exec (HB.new 0)
      (Op.batch [("a", []), ("a", [])])) (Op.rem "a"))
      (fun _ _ _ => [(0, 0)]) [] 1 200 = .ok [("a", 1)] := by
  refine ⟨by decide, ?_⟩
  norm_num [HB.searchWithEf, HB.exec, HB.batchInsert, HB.batchPrep,
    HB.applyMaps, HB.remove, HB.new, hmGet, hmInsert, hmRemove, HB.dropOld,
    List.filterMap_cons, List.filterMap_nil]

/-- C3 (amended). After every sequence of `insert`, `batch_insert` and
`remove` calls in which no single batch names the same identifier twice,
the forward and reverse maps are inverse bijections; and inserting the
same identifier twice by two `insert` calls leaves exactly one live
reverse entry, mapped to the index assigned second.  (A duplicate inside
one batch breaks this: see `C3_counterexample`.) -/
theorem C3_maps_inverse (d : Nat) (ops : List Op)
    (hops : ∀ op ∈ ops, BatchOk op) :
    MapsInv (HB.execList (HB.new d) ops) ∧
    (∀ id v v2 t1 t2,
      HB.insert (HB.execList (HB.new d) ops) id v = .ok t1 →
      HB.insert t1 id v2 = .ok t2 →
      hmGet t2.idToIdx id = some t1.nextIdx ∧
      ∀ i, (hmGet t2.idxToId i = some id ↔ i = t1.nextIdx)) := by
  have hg := good_execList ops (HB.new d) (good_new d) hops
  refine ⟨hg.1, fun id v v2 t1 t2 h1 h2 => ?_⟩
  have ht1 := insert_ok_cases _ _ _ _ h1
  subst ht1
  have hg1 := good_insOk _ hg id v
  have ht2 := insert_ok_cases _ _ _ _ h2
  subst ht2
  constructor
  · exact hmGet_insert_self _ _ _
  · intro i
    constructor
    · intro h3
      by_cases hin : i = ((HB.execList (HB.new d) ops).insOk id v).nextIdx
      · exact hin
      · exfalso
        have h4 : hmGet (hmInsert
            (HB.dropOld ((HB.execList (HB.new d) ops).insOk id v).idToIdx
              ((HB.execList (HB.new d) ops).insOk id v).idxToId id)
            ((HB.execList (HB.new d) ops).insOk id v).nextIdx id) i
            = some id := h3
        rw [hmGet_insert_ne _ _ _ _ hin] at h4
        exact absurd rfl ((dropOld_get_iff hg1.1 id i id).mp h4).2
    · intro h3
      subst h3
      exact hmGet_insert_self _ _ _

theorem C3_maps_inverse_witness :
    (∀ op ∈ [Op.batch [("a", [(1 : ℚ)]), ("b", [2])], Op.rem "a",
        Op.ins "c" [3]], BatchOk op) ∧
    (MapsInv (HB.execList (HB.new 1) [Op.batch [("a", [(1 : ℚ)]),
        ("b", [2])], Op.rem "a", Op.ins "c" [3]]) ∧
     (∀ id v v2 t1 t2,
       HB.insert (HB.execList (HB.new 1) [Op.batch [("a", [(1 : ℚ)]),
         ("b", [2])], Op.rem "a", Op.ins "c" [3]]) id v = .ok t1 →
       HB.insert t1 id v2 = .ok t2 →
       hmGet t2.idToIdx id = some t1.nextIdx ∧
       ∀ i, (hmGet t2.idxToId i = some id ↔ i = t1.nextIdx))) :=
  ⟨by decide, C3_maps_inverse 1 _ (by decide)⟩

/-- C4 (amended). Every result either backend's search emits comes from a
walk candidate whose index is live in the reverse map, with the emitted
identifier equal to that reverse entry and the score computed from its
distance; and on any state reached by calls whose batches have no
duplicate identifier, an identifier absent from the forward map is never
emitted.  (With a duplicate-identifier batch a removed identifier can be
emitted: see `C4_counterexample`.) -/
theorem C4_search_filters_retired (d : Nat) (ops : List Op)
    (hops : ∀ op ∈ ops, BatchOk op) (id : Ident)
    (hdead : hmGet (HB.execList (HB.new d) ops).idToIdx id = none)
    (walk : Walk) (query : List ℚ) (k ef : Nat) (r : List (Ident × ℚ))
    (hr : HB.searchWithEf (HB.execList (HB.new d) ops) walk query k ef
      = .ok r) :
    (∀ (s : HB) (w : Walk) (q : List ℚ) (k2 ef2 : Nat)
        (r2 : List (Ident × ℚ)),
      HB.searchWithEf s w q k2 ef2 = .ok r2 →
      ∀ p ∈ r2, ∃ i dd, (i, dd) ∈ w q k2 ef2 ∧
        hmGet s.idxToId i = some p.1 ∧ p.2 = 1 - dd) ∧
    (∀ (t : HBN) (w : Walk) (q : List ℚ) (k2 : Nat),
      ∀ p ∈ HBN.search t w q k2, ∃ i dd, (i, dd) ∈ w q k2 HBN.searchEf ∧
        hmGet t.idxToId i = some p.1 ∧ p.2 = scoreOf t.distance dd) ∧
    (∀ sc, (id, sc) ∉ r) := by
  have hgen : ∀ (s : HB) (w : Walk) (q : List ℚ) (k2 ef2 : Nat)
      (r2 : List (Ident × ℚ)),
      HB.searchWithEf s w q k2 ef2 = .ok r2 →
      ∀ p ∈ r2, ∃ i dd, (i, dd) ∈ w q k2 ef2 ∧
        hmGet s.idxToId i = some p.1 ∧ p.2 = 1 - dd := by
    intro s w q k2 ef2 r2 h p hp
    unfold HB.searchWithEf at h
    by_cases hc : 0 < s.dimension ∧ q.length ≠ s.dimension
    · rw [if_pos hc] at h
      exact Except.noConfusion h
    · rw [if_neg hc] at h
      injection h with h
      rw [← h] at hp
      obtain ⟨nb, hnb, hf⟩ := List.mem_filterMap.mp hp
      cases hmid : hmGet s.idxToId nb.1 with
      | none =>
          rw [hmid] at hf
          exact Option.noConfusion hf
      | some id2 =>
          rw [hmid] at hf
          have hp2 := Option.some.inj hf
          refine ⟨nb.1, nb.2, ?_, ?_, ?_⟩
          · exact Prod.mk.eta ▸ hnb
          · rw [hmid]
            exact congrArg some (congrArg Prod.fst hp2)
          · exact (congrArg Prod.snd hp2).symm
  refine ⟨hgen, ?_, ?_⟩
  · intro t w q k2 p hp
    unfold HBN.search at hp
    by_cases hc : t.idToIdx.isEmpty
    · rw [if_pos hc] at hp
      exact absurd hp (List.not_mem_nil p)
    · rw [if_neg hc] at hp
      obtain ⟨nb, hnb, hf⟩ := List.mem_filterMap.mp hp
      cases hmid : hmGet t.idxToId nb.1 with
      | none =>
          rw [hmid] at hf
          exact Option.noConfusion hf
      | some id2 =>
          rw [hmid] at hf
          have hp2 := Option.some.inj hf
          refine ⟨nb.1, nb.2, ?_, ?_, ?_⟩
          · exact Prod.mk.eta ▸ hnb
          · rw [hmid]
            exact congrArg some (congrArg Prod.fst hp2)
          · exact (congrArg Prod.snd hp2).symm
  · intro sc hmem
    obtain ⟨i, dd, _, hmid, _⟩ := hgen _ walk query k ef r hr (id, sc) hmem
    have hg := good_execList ops (HB.new d) (good_new d) hops
    have := (hg.1 id i).mpr hmid
    rw [this] at hdead
    exact Option.noConfusion hdead

theorem C4_search_filters_retired_witness :
    ((∀ op ∈ [Op.ins "a" ([] : List ℚ), Op.rem "a"], BatchOk op) ∧
     hmGet (HB.execList (HB.new 0)
       [Op.ins "a" ([] : List ℚ), Op.rem "a"]).idToIdx "a" = none ∧
     HB.searchWithEf (HB.execList (HB.new 0)
         [Op.ins "a" ([] : List ℚ), Op.rem "a"])
       (fun _ _ _ => [(0, 0)]) [] 1 200 = .ok []) ∧
    ((∀ (s : HB) (w : Walk) (q : List ℚ) (k2 ef2 : Nat)
        (r2 : List (Ident × ℚ)),
      HB.searchWithEf s w q k2 ef2 = .ok r2 →
      ∀ p ∈ r2, ∃ i dd, (i, dd) ∈ w q k2 ef2 ∧
        hmGet s.idxToId i = some p.1 ∧ p.2 = 1 - dd) ∧
     (∀ (t : HBN) (w : Walk) (q : List ℚ) (k2 : Nat),
      ∀ p ∈ HBN.search t w q k2, ∃ i dd, (i, dd) ∈ w q k2 HBN.searchEf ∧
        hmGet t.idxToId i = some p.1 ∧ p.2 = scoreOf t.distance dd) ∧
     (∀ sc, ("a", sc) ∉ ([] : List (Ident × ℚ)))) :=
  ⟨⟨by decide, by decide, rfl⟩,
   C4_search_filters_retired 0 [Op.ins "a" [], Op.rem "a"] (by decide)
     "a" (by decide) (fun _ _ _ => [(0, 0)]) [] 1 200 [] rfl⟩

/-- C8. Internal indices are monotone within a generation: on any state
reached by a sequence of calls from a fresh backend, every index ever
handed to the graph is below `next_idx`; a successful `insert` assigns
exactly the current `next_idx` (hence an index strictly above every
earlier one) and bumps the counter by one; a successful `batch_insert`
assigns `next_idx + j` to its `j`-th item and bumps the counter by the
batch length; and `remove` never changes the counter. -/
theorem C8_monotonic_indices (d : Nat) (ops : List Op)
    (id : Ident) (v : List ℚ) (t : HB)
    (hins : HB.insert (HB.execList (HB.new d) ops) id v = .ok t)
    (items : List (Ident × List ℚ)) (t2 : HB)
    (hbatch : HB.batchInsert (HB.execList (HB.new d) ops) items = .ok t2)
    (u : HB) (rid : Ident) :
    (∀ p ∈ (HB.execList (HB.new d) ops).hnsw,
        p.1 < (HB.execList (HB.new d) ops).nextIdx) ∧
    ((HB.execList (HB.new d) ops).nextIdx, v) ∈ t.hnsw ∧
    t.nextIdx = (HB.execList (HB.new d) ops).nextIdx + 1 ∧
    t2.nextIdx = (HB.execList (HB.new d) ops).nextIdx + items.length ∧
    (∀ j (hj : j < items.length),
        ((HB.execList (HB.new d) ops).nextIdx + j,
          (items.get ⟨j, hj⟩).2) ∈ t2.hnsw) ∧
    (u.exec (Op.rem rid)).nextIdx = u.nextIdx := by
  have hb := idxBound_execList ops (HB.new d) (good_new d).2
  have ht := insert_ok_cases _ _ _ _ hins
  subst ht
  refine ⟨hb.2, List.mem_cons_self _ _, rfl, ?_, ?_, exec_rem_nextIdx u rid⟩
  · rcases batchInsert_ok_cases _ _ _ hbatch with ⟨he, ht2⟩ | ⟨_, _, _, _, _, hn, _⟩
    · subst ht2
      rw [he]
      rfl
    · exact hn
  · intro j hj
    rcases batchInsert_ok_cases _ _ _ hbatch with ⟨he, _⟩ | ⟨_, _, hg, _, _, _, _⟩
    · rw [he] at hj
      exact absurd hj (by simp)
    · rw [hg, foldl_graph_mem]
      exact Or.inr ⟨_, enumFrom_get_mem items (HB.execList (HB.new d) ops).nextIdx j hj, rfl⟩

theorem C8_monotonic_indices_witness :
    (HB.insert (HB.execList (HB.new 0) [Op.ins "a" ([] : List ℚ)]) "b" [] =
       .ok ((HB.execList (HB.new 0) [Op.ins "a" ([] : List ℚ)]).insOk "b" []) ∧
     HB.batchInsert (HB.execList (HB.new 0) [Op.ins "a" ([] : List ℚ)])
       [("c", [])] = .ok ((HB.execList (HB.new 0)
         [Op.ins "a" ([] : List ℚ)]).exec (Op.batch [("c", [])]))) ∧
    ((∀ p ∈ (HB.execList (HB.new 0) [Op.ins "a" ([] : List ℚ)]).hnsw,
        p.1 < (HB.execList (HB.new 0) [Op.ins "a" ([] : List ℚ)]).nextIdx) ∧
     ((HB.execList (HB.new 0) [Op.ins "a" ([] : List ℚ)]).nextIdx,
        ([] : List ℚ)) ∈ ((HB.execList (HB.new 0)
          [Op.ins "a" ([] : List ℚ)]).insOk "b" []).hnsw ∧
     ((HB.execList (HB.new 0) [Op.ins "a" ([] : List ℚ)]).insOk "b"
        []).nextIdx = (HB.execList (HB.new 0)
          [Op.ins "a" ([] : List ℚ)]).nextIdx + 1 ∧
     ((HB.execList (HB.new 0) [Op.ins "a" ([] : List ℚ)]).exec
        (Op.batch [("c", [])])).nextIdx = (HB.execList (HB.new 0)
          [Op.ins "a" ([] : List ℚ)]).nextIdx +
          ([("c", ([] : List ℚ))] : List (Ident × List ℚ)).length ∧
     (∀ j (hj : j < ([("c", ([] : List ℚ))] :
          List (Ident × List ℚ)).length),
        ((HB.execList (HB.new 0) [Op.ins "a" ([] : List ℚ)]).nextIdx + j,
          (([("c", ([] : List ℚ))] : List (Ident × List ℚ)).get
            ⟨j, hj⟩).2) ∈ ((HB.execList (HB.new 0)
              [Op.ins "a" ([] : List ℚ)]).exec
                (Op.batch [("c", [])])).hnsw) ∧
     ((HB.new 5).exec (Op.rem "z")).nextIdx = (HB.new 5).nextIdx) :=
  ⟨⟨rfl, rfl⟩,
   C8_monotonic_indices 0 [Op.ins "a" []] "b" [] _ rfl
     [("c", [])] _ rfl (HB.new 5) "z"⟩

/-! ### Rebuild and optimize -/

theorem insOk_maps_eq (s u : HB) (id : Ident) (v : List ℚ)
    (h1 : s.idToIdx = u.idToIdx) (h2 : s.idxToId = u.idxToId)
    (h3 : s.nextIdx = u.nextIdx) (h4 : s.dimension = u.dimension) :
    (s.insOk id v).idToIdx = (u.insOk id v).idToIdx ∧
    (s.insOk id v).idxToId = (u.insOk id v).idxToId ∧
    (s.insOk id v).nextIdx = (u.insOk id v).nextIdx ∧
    (s.insOk id v).dimension = (u.insOk id v).dimension := by
  refine ⟨?_, ?_, ?_, ?_⟩ <;> simp [HB.insOk, HB.dropOld, h1, h2, h3, h4]

theorem foldIns_spec (L : List (Ident × List ℚ)) :
    ∀ (s : HB), (∀ it ∈ L, s.dimension = 0 ∨ it.2.length = s.dimension) →
      ∃ t, L.foldlM (fun x iv => HB.insert x iv.1 iv.2) s = .ok t ∧
        t.dimension = s.dimension ∧
        (∀ a, (hmGet t.idToIdx a).isSome ↔
          a ∈ L.map Prod.fst ∨ (hmGet s.idToIdx a).isSome) := by
  induction L with
  | nil =>
      intro s _
      exact ⟨s, rfl, rfl, by simp⟩
  | cons it rest ih =>
      intro s hval
      obtain ⟨id, v⟩ := it
      have hd := hval (id, v) (List.mem_cons_self _ _)
      have hins : HB.insert s id v = .ok (s.insOk id v) := by
        unfold HB.insert
        rcases hd with h | h
        · rw [if_neg (by simp [h])]
        · rw [if_neg (by simp [h])]
      have hval2 : ∀ it2 ∈ rest, (s.insOk id v).dimension = 0 ∨
          it2.2.length = (s.insOk id v).dimension := fun it2 h2 =>
        hval it2 (List.mem_cons_of_mem _ h2)
      obtain ⟨t, hfold, htd, hkeys⟩ := ih (s.insOk id v) hval2
      refine ⟨t, ?_, htd, ?_⟩
      · rw [List.foldlM_cons, hins]
        exact hfold
      · intro a
        have hio : (hmGet (s.insOk id v).idToIdx a).isSome ↔
            a = id ∨ (hmGet s.idToIdx a).isSome := by
          by_cases hai : a = id
          · simp only [HB.insOk, hai, hmGet_insert_self]
            simp
          · simp only [HB.insOk, hmGet_insert_ne _ _ _ _ hai]
            simp [hai]
        rw [hkeys a, hio]
        simp only [List.map_cons, List.mem_cons]
        tauto

theorem foldIns_congr (L : List (Ident × List ℚ)) :
    ∀ (s u : HB), s.idToIdx = u.idToIdx → s.idxToId = u.idxToId →
      s.nextIdx = u.nextIdx → s.dimension = u.dimension →
      ∀ t1, L.foldlM (fun x iv => HB.insert x iv.1 iv.2) s = .ok t1 →
      ∃ t2, L.foldlM (fun x iv => HB.insert x iv.1 iv.2) u = .ok t2 ∧
        t1.idToIdx = t2.idToIdx ∧ t1.idxToId = t2.idxToId ∧
        t1.nextIdx = t2.nextIdx ∧ t1.dimension = t2.dimension := by
  induction L with
  | nil =>
      intro s u h1 h2 h3 h4 t1 ht
      simp only [List.foldlM_nil] at ht
      injection ht with ht
      subst ht
      exact ⟨u, rfl, h1, h2, h3, h4⟩
  | cons it rest ih =>
      intro s u h1 h2 h3 h4 t1 ht
      obtain ⟨id, v⟩ := it
      rw [List.foldlM_cons] at ht ⊢
      by_cases hc : 0 < s.dimension ∧ v.length ≠ s.dimension
      · have herr : HB.insert s id v =
            .error (dimMismatchMsg s.dimension v.length) := by
          unfold HB.insert
          rw [if_pos hc]
        rw [herr] at ht
        exact Except.noConfusion ht
      · have hins : HB.insert s id v = .ok (s.insOk id v) := by
          unfold HB.insert
          rw [if_neg hc]
        have hcu : ¬(0 < u.dimension ∧ v.length ≠ u.dimension) := by
          rw [← h4]
          exact hc
        have hinsu : HB.insert u id v = .ok (u.insOk id v) := by
          unfold HB.insert
          rw [if_neg hcu]
        rw [hins] at ht
        rw [hinsu]
        obtain ⟨e1, e2, e3, e4⟩ := insOk_maps_eq s u id v h1 h2 h3 h4
        exact ih (s.insOk id v) (u.insOk id v) e1 e2 e3 e4 t1 ht

/-- C9. For a list `L` of dimension-valid pairs, `optimize(L)` succeeds,
leaves exactly the identifiers of `L` live, and a second `optimize(L)`
with no intervening writes reproduces the same forward map, reverse map
and `next_idx` counter (the graph object itself is not recreated and is
excluded, as in the claim). -/
theorem C9_optimize_idempotent (s : HB) (L : List (Ident × List ℚ))
    (hval : ∀ it ∈ L, s.dimension = 0 ∨ it.2.length = s.dimension) :
    ∃ t c, HB.optimize s L = .ok (t, c) ∧
      (∀ a, (hmGet t.idToIdx a).isSome ↔ a ∈ L.map Prod.fst) ∧
      ∃ t2 c2, HB.optimize t L = .ok (t2, c2) ∧
        t2.idToIdx = t.idToIdx ∧ t2.idxToId = t.idxToId ∧
        t2.nextIdx = t.nextIdx := by
  obtain ⟨t, hfold, htd, hkeys⟩ := foldIns_spec L
    ({ s with idToIdx := [], idxToId := [], nextIdx := 0 })
    (fun it h => hval it h)
  have hopt1 : HB.optimize s L =
      .ok (t, s.idxToId.length - t.idxToId.length) := by
    unfold HB.optimize HB.rebuildFromVectors
    rw [hfold]
    rfl
  refine ⟨t, _, hopt1, ?_, ?_⟩
  · intro a
    rw [hkeys a]
    simp [hmGet]
  · obtain ⟨t2, hfold2, e1, e2, e3, _⟩ := foldIns_congr L
      { s with idToIdx := [], idxToId := [], nextIdx := 0 }
      { t with idToIdx := [], idxToId := [], nextIdx := 0 }
      rfl rfl rfl htd.symm t hfold
    have hopt2 : HB.optimize t L =
        .ok (t2, t.idxToId.length - t2.idxToId.length) := by
      unfold HB.optimize HB.rebuildFromVectors
      rw [hfold2]
      rfl
    exact ⟨t2, _, hopt2, e1.symm, e2.symm, e3.symm⟩

theorem C9_optimize_idempotent_witness :
    (∀ it ∈ [("a", [(1 : ℚ), 2]), ("b", [3, 4])], (HB.new 2).dimension = 0 ∨
      it.2.length = (HB.new 2).dimension) ∧
    (∃ t c, HB.optimize (HB.new 2) [("a", [(1 : ℚ), 2]), ("b", [3, 4])] =
        .ok (t, c) ∧
      (∀ a, (hmGet t.idToIdx a).isSome ↔
        a ∈ ([("a", [(1 : ℚ), 2]), ("b", [3, 4])] :
          List (Ident × List ℚ)).map Prod.fst) ∧
      ∃ t2 c2, HB.optimize t [("a", [(1 : ℚ), 2]), ("b", [3, 4])] =
          .ok (t2, c2) ∧
        t2.idToIdx = t.idToIdx ∧ t2.idxToId = t.idxToId ∧
        t2.nextIdx = t.nextIdx) :=
  ⟨by decide,
   C9_optimize_idempotent (HB.new 2) [("a", [1, 2]), ("b", [3, 4])]
     (by decide)⟩
